import Mathlib

/-!
Shallow embedding of `sqlalchemy_csv_normalise` (file
`sqlalchemy_csv_normalise/__init__.py`), together with theorems checking
the natural-language specification against the code.

Modelling conventions:
* A SQLAlchemy `Column` is a record of the metadata the code reads:
  name, `nullable`, `unique`, `primary_key`, the list of foreign-key
  targets (each a pair of remote table name and remote column name),
  and the declared python type (`c.type.python_type`).
* A `Table` is a name plus an ordered list of columns; a `Schema` is the
  list of tables, used to resolve foreign-key targets by name (SQLAlchemy
  resolves them through object references; here the reference is by name).
* A row dictionary is an association list `Row`; `lookupR`, `insertR`
  (update-in-place-or-append, as for a python dict) and `eraseR` give the
  dict operations used by the code.
* Python code that can raise (`KeyError` from `d[k]` / `d.pop(k)` /
  lookup misses, `IndexError` from `xs[0]`, date-parse errors) is
  embedded as an `Option`-returning function, `none` meaning the call
  raises.
* `dateutil.parser.parse` is external; it is passed as an abstract
  `parse : String → Option Value` parameter.
-/

/-- The python type declared for a column (`c.type.python_type`). -/
inductive PyType where
  | pyBool
  | pyDate
  | pyDatetime
  | pyInt
  | pyStr
  | pyOther
  deriving DecidableEq, Repr

/-- A column's schema metadata, as read by the code via `inspect`.
`foreign_keys` lists the targets of the column's foreign keys, each as
(remote table name, remote column name). -/
structure Column where
  name : String
  nullable : Bool := false
  unique : Bool := false
  primary_key : Bool := false
  foreign_keys : List (String × String) := []
  pytype : PyType := PyType.pyStr
  deriving DecidableEq, Repr

/-- A table: its name and its ordered columns. -/
structure Table where
  name : String
  columns : List Column
  deriving DecidableEq, Repr

/-- A schema: the collection of tables, for resolving foreign keys. -/
def Schema := List Table

/-- Resolve a table by name in the schema. -/
def lookupTable (s : Schema) (n : String) : Option Table :=
  List.find? (fun t => t.name = n) s

/-- Resolve a column of a table by name. -/
def lookupColumn (t : Table) (n : String) : Option Column :=
  List.find? (fun c => c.name = n) t.columns

/-- One pass over the columns, appending each to exactly one of the three
lists: foreign keys first (`if c.foreign_keys`), then primary keys
(`elif c.primary_key`), else "other". -/
def partitionCols : List Column → List Column × List Column × List Column
  | [] => ([], [], [])
  | c :: rest =>
    let (pks, fks, others) := partitionCols rest
    if ¬c.foreign_keys.isEmpty then (pks, c :: fks, others)
    else if c.primary_key then (c :: pks, fks, others)
    else (pks, fks, c :: others)

/-- `columns_partition(table)`: partitions columns into
(primary keys, foreign keys, other). -/
def columns_partition (t : Table) : List Column × List Column × List Column :=
  partitionCols t.columns

/-- `find_natural_key(table)`: the unique "other" column if there is
exactly one, otherwise the primary keys. -/
def find_natural_key (t : Table) : List Column :=
  let p := columns_partition t
  let natural_keys := p.2.2.filter (fun c => c.unique)
  if natural_keys.length = 1 then natural_keys else p.1

/-- A labeled column expression, `col.label(name)`: the underlying remote
column plus the label it is given (the local foreign-key column's name). -/
structure Labeled where
  col : Column
  name : String
  deriving DecidableEq, Repr

/-- The foreign-key loop of `_normalisation_info`: for each foreign-key
column, resolve its first target; if the remote table's natural key
contains a primary-key column, the foreign key passes through raw
(appended to the simple columns); otherwise the remote natural-key head is
recorded as a denormalised column labeled with the foreign key's name.
Returns (raw pass-through columns, denormalised columns, to_tables,
to_columns, from_columns); `none` embeds a raised `IndexError`/`KeyError`
(no foreign-key target, unresolvable target, or empty remote natural key
in the denormalising branch). -/
def normaliseFks (s : Schema) :
    List Column →
    Option (List Column × List Labeled × List Table × List Column × List Column)
  | [] => some ([], [], [], [], [])
  | fk :: rest =>
    match fk.foreign_keys with
    | [] => none
    | (tname, cname) :: _ =>
      match lookupTable s tname with
      | none => none
      | some to_table =>
        match lookupColumn to_table cname with
        | none => none
        | some to_column =>
          let remote_natural_keys := find_natural_key to_table
          if (remote_natural_keys.filter (fun c => c.primary_key)) ≠ [] then
            match normaliseFks s rest with
            | none => none
            | some (raw, dn, tts, tcs, fcs) =>
              some (fk :: raw, dn, tts, tcs, fcs)
          else
            match remote_natural_keys with
            | [] => none
            | r0 :: _ =>
              match normaliseFks s rest with
              | none => none
              | some (raw, dn, tts, tcs, fcs) =>
                some (raw, ⟨r0, fk.name⟩ :: dn, to_table :: tts,
                  to_column :: tcs, fk :: fcs)

/-- The normalisation plan returned by `_normalisation_info`. -/
structure NormPlan where
  simple_cols : List Column
  denormalised_cols : List Labeled
  to_tables : List Table
  to_columns : List Column
  from_columns : List Column
  deriving DecidableEq, Repr

/-- `_normalisation_info(table)`: primary keys join the simple columns
exactly when the table's natural key contains a primary-key column; the
simple columns are those maybe-primary-keys, then the "other" columns,
then the raw pass-through foreign keys appended by the loop. -/
def _normalisation_info (s : Schema) (t : Table) : Option NormPlan :=
  let p := columns_partition t
  let natural_keys := find_natural_key t
  let maybe_primary_keys :=
    if (natural_keys.filter (fun c => c.primary_key)) ≠ [] then p.1 else []
  match normaliseFks s p.2.1 with
  | none => none
  | some (raw, dn, tts, tcs, fcs) =>
    some ⟨maybe_primary_keys ++ p.2.2 ++ raw, dn, tts, tcs, fcs⟩

/-- `_tidy_colname`: strip a trailing `_id`. -/
def _tidy_colname (n : String) : String :=
  if n.endsWith "_id" then n.dropRight 3 else n

/-- A value held in a row dictionary: a string (as read from CSV) or a
typed value produced by coercion or renormalisation. -/
inductive Value where
  | vStr (s : String)
  | vBool (b : Bool)
  | vInt (n : Int)
  | vDate (s : String)
  deriving DecidableEq, Repr

/-- A row dictionary: an ordered association list from column name to
value. -/
def Row := List (String × Value)

instance : DecidableEq Row := inferInstanceAs (DecidableEq (List (String × Value)))

/-- Dict lookup `d[k]` (the first entry with the key, as in a dict). -/
def lookupR (d : Row) (k : String) : Option Value :=
  match d with
  | [] => none
  | (k', v) :: rest => if k' = k then some v else lookupR rest k

/-- Dict update `d[k] = v`: replace the entry in place if the key is
present, else append. -/
def insertR (k : String) (v : Value) : Row → Row
  | [] => [(k, v)]
  | (k', v') :: rest =>
    if k' = k then (k, v) :: rest else (k', v') :: insertR k v rest

/-- Dict removal `d.pop(k)`'s effect on the dict: drop the entry. -/
def eraseR (k : String) : Row → Row
  | [] => []
  | (k', v) :: rest =>
    if k' = k then eraseR k rest else (k', v) :: eraseR k rest

/-- The nullable column names collected by `empty_deleter`. -/
def nullableNames (t : Table) : List String :=
  (t.columns.filter (fun c => c.nullable)).map (fun c => c.name)

/-- The `_row_cleaner` loop: for each nullable column name, read `d[col]`
(`none` embeds the `KeyError` when the key is absent) and drop the entry
when the value is the empty string. -/
def rowClean : List String → Row → Option Row
  | [], d => some d
  | col :: rest, d =>
    match lookupR d col with
    | none => none
    | some v => rowClean rest (if v = Value.vStr "" then eraseR col d else d)

/-- `empty_deleter(table)`: the returned row-cleaning closure. -/
def empty_deleter (t : Table) : Row → Option Row :=
  rowClean (nullableNames t)

/-- `_COERCE.get(python_type, identity)`: the per-type coercion applied
to string values. Booleans: `v == "True"`. Dates and datetimes:
`dateutil.parser.parse` (abstract; `none` embeds a parse error). All other
types: the identity on the string. -/
def coerceFor (parse : String → Option Value) :
    PyType → String → Option Value
  | PyType.pyBool => fun v => some (Value.vBool (v = "True"))
  | PyType.pyDate => parse
  | PyType.pyDatetime => parse
  | _ => fun v => some (Value.vStr v)

/-- The `coerceables` mapping of `type_coercer`: column name to the
coercion for its python type. -/
def coerceables (parse : String → Option Value) (t : Table) :
    List (String × (String → Option Value)) :=
  t.columns.map (fun c => (c.name, coerceFor parse c.pytype))

/-- One entry of the `_row_coercer` loop: a string value is replaced by
`coerceables[col]` applied to it (`none` embeds the `KeyError` when the
row has a key that is not a column, or a failed date parse); a non-string
value is untouched. -/
def coerceEntry (cs : List (String × (String → Option Value)))
    (k : String) : Value → Option Value
  | Value.vStr s =>
    match List.find? (fun e => e.1 = k) cs with
    | none => none
    | some e => e.2 s
  | v => some v

/-- The `_row_coercer` loop over the row's entries. -/
def coerceRow (cs : List (String × (String → Option Value))) :
    Row → Option Row
  | [] => some []
  | (k, v) :: rest =>
    match coerceEntry cs k v with
    | none => none
    | some v' => (coerceRow cs rest).map (fun r => (k, v') :: r)

/-- `type_coercer(table)`: the returned row-coercing closure. -/
def type_coercer (parse : String → Option Value) (t : Table) :
    Row → Option Row :=
  coerceRow (coerceables parse t)

/-- One lookup of `renormalise_prepare`: the tidied CSV column name, the
original (SQL) foreign-key column name, and the lookup map from
natural-key value to surrogate value (`none` embeds the `KeyError` of a
missing map entry). -/
abbrev Lookups := List (String × String × (Value → Option Value))

/-- The `_row_maker` loop: for each lookup, pop the tidied name from the
row (`none` embeds the `KeyError` when absent), resolve it in the lookup
map (`none` embeds the `KeyError` of a lookup miss), and store the
surrogate value under the original foreign-key column name. -/
def _row_maker : Lookups → Row → Option Row
  | [], d => some d
  | (csvName, sqlName, lk) :: rest, d =>
    match lookupR d csvName with
    | none => none
    | some v =>
      match lk v with
      | none => none
      | some surr => _row_maker rest (insertR sqlName surr (eraseR csvName d))

/-! ### Basic lemmas about the row-dictionary operations -/

theorem lookupR_eraseR_self (k : String) (d : Row) :
    lookupR (eraseR k d) k = none := by
  induction d with
  | nil => rfl
  | cons e rest ih =>
    obtain ⟨k', v⟩ := e
    by_cases h : k' = k
    · simpa [eraseR, h] using ih
    · simpa [eraseR, h, lookupR] using ih

theorem lookupR_eraseR_ne (k k' : String) (d : Row) (h : k' ≠ k) :
    lookupR (eraseR k d) k' = lookupR d k' := by
  induction d with
  | nil => rfl
  | cons e rest ih =>
    obtain ⟨k0, v⟩ := e
    have hk : ¬k = k' := fun hc => h hc.symm
    by_cases he : k0 = k
    · have h1 : ¬k0 = k' := by rw [he]; exact fun hc => h hc.symm
      simp [eraseR, he, lookupR, h1, ih, hk]
    · by_cases he' : k0 = k'
      · simp [eraseR, he, lookupR, he', h]
      · simp [eraseR, he, lookupR, he', ih]

theorem lookupR_insertR_self (k : String) (v : Value) (d : Row) :
    lookupR (insertR k v d) k = some v := by
  induction d with
  | nil => simp [insertR, lookupR]
  | cons e rest ih =>
    obtain ⟨k0, v0⟩ := e
    by_cases h : k0 = k
    · simp [insertR, h, lookupR]
    · simp [insertR, h, lookupR, ih]

theorem lookupR_insertR_ne (k k' : String) (v : Value) (d : Row) (h : k' ≠ k) :
    lookupR (insertR k v d) k' = lookupR d k' := by
  have hk : ¬k = k' := fun hc => h hc.symm
  induction d with
  | nil => simp [insertR, lookupR, hk]
  | cons e rest ih =>
    obtain ⟨k0, v0⟩ := e
    by_cases he : k0 = k
    · simp [insertR, he, lookupR, hk]
    · simp [insertR, he, lookupR, ih]

/-! ### Sample schema (the tables of the repository's test suite) -/

def lookup_nonk_table : Table :=
  { name := "lookup_nonk_table"
    columns :=
      [{ name := "id", primary_key := true, pytype := PyType.pyInt },
       { name := "description" }] }

def lookup_table : Table :=
  { name := "lookup_table"
    columns :=
      [{ name := "id", primary_key := true, pytype := PyType.pyInt },
       { name := "description", unique := true }] }

def normalised_table : Table :=
  { name := "normalised_table"
    columns :=
      [{ name := "id", primary_key := true, pytype := PyType.pyInt },
       { name := "username", unique := true },
       { name := "name", nullable := true },
       { name := "accounttype_id", foreign_keys := [("lookup_table", "id")],
         pytype := PyType.pyInt },
       { name := "age", pytype := PyType.pyInt },
       { name := "valid", pytype := PyType.pyBool },
       { name := "nonk_id", nullable := true,
         foreign_keys := [("lookup_nonk_table", "id")], pytype := PyType.pyInt }] }

def sample_schema : Schema :=
  [lookup_nonk_table, lookup_table, normalised_table]

/-! ### Lemmas about the null-stripper loop -/

theorem rowClean_missing (ns : List String) (d : Row) (col : String)
    (hmem : col ∈ ns) (hmiss : lookupR d col = none) :
    rowClean ns d = none := by
  induction ns generalizing d with
  | nil => cases hmem
  | cons c0 rest ih =>
    cases List.mem_cons.mp hmem with
    | inl h =>
      subst h
      simp [rowClean, hmiss]
    | inr h =>
      cases hv : lookupR d c0 with
      | none => simp [rowClean, hv]
      | some v =>
        have h2 : lookupR (if v = Value.vStr "" then eraseR c0 d else d) col = none := by
          by_cases hc : c0 = col
          · subst hc; rw [hv] at hmiss; cases hmiss
          · by_cases hvv : v = Value.vStr ""
            · simp [hvv, lookupR_eraseR_ne c0 col d (fun hc2 => hc hc2.symm), hmiss]
            · simp [hvv, hmiss]
        simp [rowClean, hv, ih _ h h2]

theorem rowClean_noop (ns : List String) (d : Row)
    (h : ∀ col ∈ ns, lookupR d col ≠ none ∧ lookupR d col ≠ some (Value.vStr "")) :
    rowClean ns d = some d := by
  induction ns with
  | nil => rfl
  | cons c0 rest ih =>
    obtain ⟨h1, h2⟩ := h c0 (List.mem_cons_self c0 rest)
    cases hv : lookupR d c0 with
    | none => exact absurd hv h1
    | some v =>
      have hne : ¬v = Value.vStr "" := fun hh => h2 (by rw [hv, hh])
      have hrest : rowClean rest d = some d :=
        ih (fun col hc => h col (List.mem_cons_of_mem _ hc))
      simp [rowClean, hv, hne, hrest]

theorem rowClean_spec (ns : List String) (d : Row) (hnd : ns.Nodup)
    (h : ∀ col ∈ ns, (lookupR d col).isSome) :
    ∃ r, rowClean ns d = some r ∧
      ∀ k, lookupR r k =
        if k ∈ ns ∧ lookupR d k = some (Value.vStr "") then none
        else lookupR d k := by
  induction ns generalizing d with
  | nil => exact ⟨d, rfl, fun k => by simp⟩
  | cons c0 rest ih =>
    have hsome := h c0 (List.mem_cons_self c0 rest)
    cases hv : lookupR d c0 with
    | none => rw [hv] at hsome; cases hsome
    | some v =>
      have hc0 : c0 ∉ rest := (List.nodup_cons.mp hnd).1
      have hnd' : rest.Nodup := (List.nodup_cons.mp hnd).2
      have hlook : ∀ k, k ≠ c0 →
          lookupR (if v = Value.vStr "" then eraseR c0 d else d) k = lookupR d k := by
        intro k hk
        by_cases hvv : v = Value.vStr ""
        · simp [hvv, lookupR_eraseR_ne c0 k d hk]
        · simp [hvv]
      have h' : ∀ col ∈ rest,
          (lookupR (if v = Value.vStr "" then eraseR c0 d else d) col).isSome := by
        intro col hcol
        have hne : col ≠ c0 := fun he => hc0 (he ▸ hcol)
        rw [hlook col hne]
        exact h col (List.mem_cons_of_mem _ hcol)
      obtain ⟨r, hr, hrl⟩ := ih _ hnd' h'
      refine ⟨r, ?_, ?_⟩
      · simpa [rowClean, hv] using hr
      · intro k
        by_cases hk : k = c0
        · subst hk
          have hmem : k ∉ rest := hc0
          by_cases hvv : v = Value.vStr ""
          · have : lookupR r k = none := by
              rw [hrl k]
              simp [hmem, hvv, lookupR_eraseR_self]
            rw [this]
            simp [hv, hvv]
          · have : lookupR r k = lookupR d k := by
              rw [hrl k]
              simp [hmem, hvv]
            rw [this, hv]
            have hcond : ¬(some v = some (Value.vStr "")) := fun hh =>
              hvv (Option.some.inj hh)
            simp [hv, hcond]
        · rw [hrl k, hlook k hk]
          simp [List.mem_cons, hk]

/-- Claim C3: for every table with exactly one unique non-key ("other")
column `c`, `find_natural_key` returns `[c]`; with zero or two-or-more
unique non-key columns it returns the primary-key columns unchanged. -/
theorem find_natural_key_resolves (t : Table) (c : Column) :
    ((columns_partition t).2.2.filter (fun c0 => c0.unique) = [c] →
      find_natural_key t = [c]) ∧
    (((columns_partition t).2.2.filter (fun c0 => c0.unique)).length ≠ 1 →
      find_natural_key t = (columns_partition t).1) := by
  constructor
  · intro h
    simp [find_natural_key, h]
  · intro h
    simp [find_natural_key, h]

theorem find_natural_key_resolves_witness :
    ((columns_partition lookup_table).2.2.filter (fun c0 => c0.unique) =
        [⟨"description", false, true, false, [], PyType.pyStr⟩] ∧
      find_natural_key lookup_table =
        [⟨"description", false, true, false, [], PyType.pyStr⟩]) ∧
    (((columns_partition lookup_nonk_table).2.2.filter
          (fun c0 => c0.unique)).length ≠ 1 ∧
      find_natural_key lookup_nonk_table = (columns_partition lookup_nonk_table).1) :=
  ⟨⟨by decide,
    (find_natural_key_resolves lookup_table
      ⟨"description", false, true, false, [], PyType.pyStr⟩).1 (by decide)⟩,
   ⟨by decide,
    (find_natural_key_resolves lookup_nonk_table
      ⟨"x", false, false, false, [], PyType.pyStr⟩).2 (by decide)⟩⟩

/-- Claim C10: for every row lacking a key for some nullable column of the
table, the function returned by `empty_deleter` fails with a key-lookup
error (embedded as `none`) rather than returning a row. -/
theorem empty_deleter_requires_nullable_keys (t : Table) (d : Row) (col : String)
    (h1 : col ∈ nullableNames t) (h2 : lookupR d col = none) :
    empty_deleter t d = none :=
  rowClean_missing _ _ _ h1 h2

theorem empty_deleter_requires_nullable_keys_witness :
    "name" ∈ nullableNames normalised_table ∧
    lookupR [("username", Value.vStr "noname")] "name" = none ∧
    empty_deleter normalised_table [("username", Value.vStr "noname")] = none :=
  ⟨by decide, by decide,
   empty_deleter_requires_nullable_keys normalised_table
     [("username", Value.vStr "noname")] "name" (by decide) (by decide)⟩

/-- Claim C2 counterexample: a row whose nullable column `name` holds the
empty string.  One application strips the key; a second application then
raises a key-lookup error (`none`), so applying the null-stripper twice is
NOT the same as applying it once. -/
theorem empty_deleter_not_idempotent :
    (empty_deleter normalised_table
        [("name", Value.vStr ""), ("nonk_id", Value.vStr "1")]).bind
      (empty_deleter normalised_table) ≠
    empty_deleter normalised_table
      [("name", Value.vStr ""), ("nonk_id", Value.vStr "1")] := by decide

/-- Claim C2 (amended): the null-stripper is idempotent on every row that
holds an entry for every nullable column and in which no nullable column's
value is the empty string (so that the first application removes nothing);
when the first application strips a key, reapplying fails with a
key-lookup error instead. -/
theorem empty_deleter_idempotent (t : Table) (d : Row)
    (h : ∀ col ∈ nullableNames t,
      lookupR d col ≠ none ∧ lookupR d col ≠ some (Value.vStr "")) :
    (empty_deleter t d).bind (empty_deleter t) = empty_deleter t d := by
  have h1 : empty_deleter t d = some d := rowClean_noop _ _ h
  rw [h1]
  simpa using h1

theorem empty_deleter_idempotent_witness :
    (∀ col ∈ nullableNames normalised_table,
      lookupR [("name", Value.vStr "Big Bob"), ("nonk_id", Value.vStr "1")] col ≠ none ∧
      lookupR [("name", Value.vStr "Big Bob"), ("nonk_id", Value.vStr "1")] col ≠
        some (Value.vStr "")) ∧
    (empty_deleter normalised_table
        [("name", Value.vStr "Big Bob"), ("nonk_id", Value.vStr "1")]).bind
      (empty_deleter normalised_table) =
    empty_deleter normalised_table
      [("name", Value.vStr "Big Bob"), ("nonk_id", Value.vStr "1")] :=
  ⟨by decide,
   empty_deleter_idempotent normalised_table
     [("name", Value.vStr "Big Bob"), ("nonk_id", Value.vStr "1")] (by decide)⟩

/-- Claim C7 counterexample: on a row that lacks an entry for the nullable
column `name`, the function returned by `empty_deleter` raises a
key-lookup error (`none`) instead of returning a new row, so the claim's
universal "for every input row ... returns a new row" fails. -/
theorem empty_deleter_not_total :
    empty_deleter normalised_table [("username", Value.vStr "bob")] = none := by
  decide

/-- The null-stripper's input row from the repository's test suite. -/
def delete_in_row : Row :=
  [("username", Value.vStr "noname"), ("name", Value.vStr ""),
   ("accounttype", Value.vStr "user"), ("age", Value.vStr "33"),
   ("valid", Value.vStr "False"), ("nonk_id", Value.vInt 1)]

/-- Claim C7 (amended): for every table (with distinct nullable column
names) and every input row that holds an entry for each nullable column,
the null-stripper returns a new row in which exactly the keys of nullable
columns holding the empty string are removed; every other key — including
non-nullable columns holding the empty string — keeps its value. -/
theorem empty_deleter_strips_empty_nullables (t : Table) (d : Row)
    (hnd : (nullableNames t).Nodup)
    (h : ∀ col ∈ nullableNames t, (lookupR d col).isSome) :
    ∃ r, empty_deleter t d = some r ∧
      ∀ k, lookupR r k =
        if k ∈ nullableNames t ∧ lookupR d k = some (Value.vStr "") then none
        else lookupR d k :=
  rowClean_spec _ _ hnd h

theorem empty_deleter_strips_empty_nullables_witness :
    (nullableNames normalised_table).Nodup ∧
    (∀ col ∈ nullableNames normalised_table, (lookupR delete_in_row col).isSome) ∧
    ∃ r, empty_deleter normalised_table delete_in_row = some r ∧
      ∀ k, lookupR r k =
        if k ∈ nullableNames normalised_table ∧
            lookupR delete_in_row k = some (Value.vStr "") then none
        else lookupR delete_in_row k :=
  ⟨by decide, by decide,
   empty_deleter_strips_empty_nullables normalised_table delete_in_row
     (by decide) (by decide)⟩

/-! ### Lemmas about the type coercer -/

theorem coerceables_find (parse : String → Option Value) (l : List Column)
    (c : Column) (hmem : c ∈ l) (hnd : (l.map (fun c0 => c0.name)).Nodup) :
    List.find? (fun e => e.1 = c.name)
        (l.map (fun c0 => (c0.name, coerceFor parse c0.pytype))) =
      some (c.name, coerceFor parse c.pytype) := by
  induction l with
  | nil => cases hmem
  | cons c0 rest ih =>
    cases List.mem_cons.mp hmem with
    | inl h =>
      subst h
      simp [List.find?]
    | inr h =>
      rw [List.map_cons] at hnd
      have hnd1 : c0.name ∉ rest.map (fun c1 => c1.name) :=
        (List.nodup_cons.mp hnd).1
      have hnd' : (rest.map (fun c1 => c1.name)).Nodup :=
        (List.nodup_cons.mp hnd).2
      have hne : ¬c0.name = c.name := fun he =>
        hnd1 (by rw [he]; exact List.mem_map.mpr ⟨c, h, rfl⟩)
      simp [List.find?, hne, ih h hnd']

theorem coerceRow_lookup (cs : List (String × (String → Option Value)))
    (d : Row) (k : String) (f : String → Option Value)
    (hf : List.find? (fun e => e.1 = k) cs = some (k, f)) :
    ∀ r, coerceRow cs d = some r →
      (∀ s, lookupR d k = some (Value.vStr s) → lookupR r k = f s) ∧
      (∀ v, lookupR d k = some v → (∀ s, v ≠ Value.vStr s) →
        lookupR r k = some v) := by
  induction d with
  | nil =>
    intro r h
    have h0 : some ([] : List (String × Value)) = some r := h
    obtain rfl := Option.some.inj h0
    constructor
    · intro s hs; simp [lookupR] at hs
    · intro v hv _; simp [lookupR] at hv
  | cons e0 rest ih =>
    obtain ⟨k0, v0⟩ := e0
    intro r h
    cases hce : coerceEntry cs k0 v0 with
    | none => rw [coerceRow, hce] at h; cases h
    | some v' =>
      rw [coerceRow, hce] at h
      obtain ⟨r', hr', hrr⟩ := Option.map_eq_some'.mp h
      subst hrr
      by_cases hk : k0 = k
      · subst hk
        constructor
        · intro s hs
          have hv0 : v0 = Value.vStr s := by
            simpa [lookupR] using hs
          subst hv0
          rw [coerceEntry, hf] at hce
          simp [lookupR, ← hce]
        · intro v hv hvs
          have hv0 : v0 = v := by
            simpa [lookupR] using hv
          subst hv0
          cases v0 with
          | vStr s => exact absurd rfl (hvs s)
          | vBool b => simp [coerceEntry] at hce; simp [lookupR, hce]
          | vInt n => simp [coerceEntry] at hce; simp [lookupR, hce]
          | vDate s => simp [coerceEntry] at hce; simp [lookupR, hce]
      · have hlr : lookupR ((k0, v') :: r') k = lookupR r' k := by
          simp [lookupR, hk]
        constructor
        · intro s hs
          have hs' : lookupR rest k = some (Value.vStr s) := by
            simpa [lookupR, hk] using hs
          rw [hlr]
          exact ((ih r' hr').1) s hs'
        · intro v hv hvs
          have hv' : lookupR rest k = some v := by
            simpa [lookupR, hk] using hv
          rw [hlr]
          exact ((ih r' hr').2) v hv' hvs

/-- Claim C9: for every boolean-typed column, the type coercer maps the
exact text `"True"` to boolean true and every other string (including
`"False"` and `"Maybe"`) to boolean false, never raising an error; values
that are already non-string are left untouched. -/
theorem type_coercer_bool (parse : String → Option Value) (t : Table)
    (c : Column) (hmem : c ∈ t.columns) (hty : c.pytype = PyType.pyBool)
    (hnd : (t.columns.map (fun c0 => c0.name)).Nodup) :
    (∀ s, coerceFor parse c.pytype s = some (Value.vBool (s = "True"))) ∧
    (∀ d r, type_coercer parse t d = some r →
      (∀ s, lookupR d c.name = some (Value.vStr s) →
        lookupR r c.name = some (Value.vBool (s = "True"))) ∧
      (∀ v, lookupR d c.name = some v → (∀ s, v ≠ Value.vStr s) →
        lookupR r c.name = some v)) := by
  have hfind : List.find? (fun e => e.1 = c.name) (coerceables parse t) =
      some (c.name, coerceFor parse c.pytype) :=
    coerceables_find parse t.columns c hmem hnd
  constructor
  · intro s
    rw [hty]
    rfl
  · intro d r h
    have hcl := coerceRow_lookup (coerceables parse t) d c.name
      (coerceFor parse c.pytype) hfind r h
    constructor
    · intro s hs
      have := hcl.1 s hs
      rw [hty] at this
      exact this
    · exact hcl.2

/-- An always-failing stand-in for the external date parser. -/
def parse0 : String → Option Value := fun _ => none

/-- The `valid` boolean column of the sample table. -/
def valid_col : Column :=
  ⟨"valid", false, false, false, [], PyType.pyBool⟩

/-- A concrete input row for the type coercer. -/
def coerce_in_row : Row :=
  [("username", Value.vStr "bob"), ("valid", Value.vStr "Maybe"),
   ("age", Value.vInt 31)]

/-- The coerced output row for `coerce_in_row`. -/
def coerce_out_row : Row :=
  [("username", Value.vStr "bob"), ("valid", Value.vBool false),
   ("age", Value.vInt 31)]

theorem type_coercer_bool_witness :
    lookupR coerce_in_row "valid" = some (Value.vStr "Maybe") ∧
    type_coercer parse0 normalised_table coerce_in_row = some coerce_out_row ∧
    lookupR coerce_out_row "valid" = some (Value.vBool false) := by
  refine ⟨by decide, by decide, ?_⟩
  have h2 := (type_coercer_bool parse0 normalised_table valid_col
    (by decide) (by decide) (by decide)).2 coerce_in_row coerce_out_row (by decide)
  have h3 := h2.1 "Maybe" (by decide)
  simpa using h3

/-! ### Lemmas about the renormalising row maker -/

theorem row_maker_miss_aux (csv sql : String) (lk : Value → Option Value)
    (v : Value) (hmiss : lk v = none) :
    ∀ (ls : Lookups) (d : Row),
      ls.filter (fun e => e.1 = csv) = [(csv, sql, lk)] →
      (∀ e ∈ ls, e.2.1 = csv → e.1 = csv) →
      (lookupR d csv = some v ∨ lookupR d csv = none) →
      _row_maker ls d = none := by
  intro ls
  induction ls with
  | nil => intro d huniq _ _; cases huniq
  | cons e0 rest ih =>
    obtain ⟨c0, s0, l0⟩ := e0
    intro d huniq hsql hd
    by_cases hc : c0 = csv
    · subst hc
      rw [List.filter_cons] at huniq
      simp only [decide_True, if_pos rfl] at huniq
      obtain ⟨heq, _⟩ := List.cons.inj huniq
      obtain ⟨rfl, rfl⟩ := Prod.mk.inj (Prod.mk.inj heq).2
      cases hl : lookupR d c0 with
      | none => simp [_row_maker, hl]
      | some w =>
        have hw : w = v := by
          cases hd with
          | inl h => rw [hl] at h; exact Option.some.inj h
          | inr h => rw [hl] at h; cases h
        subst hw
        simp [_row_maker, hl, hmiss]
    · have hfe : ¬((c0, s0, l0).1 = csv) := hc
      rw [List.filter_cons] at huniq
      rw [if_neg (by simp [hc])] at huniq
      have hs0 : s0 ≠ csv := fun he =>
        hc (hsql (c0, s0, l0) (List.mem_cons_self _ _) he)
      cases hl : lookupR d c0 with
      | none => simp [_row_maker, hl]
      | some w =>
        cases hlk : l0 w with
        | none => simp [_row_maker, hl, hlk]
        | some surr =>
          have hd' : lookupR (insertR s0 surr (eraseR c0 d)) csv = some v ∨
              lookupR (insertR s0 surr (eraseR c0 d)) csv = none := by
            rw [lookupR_insertR_ne s0 csv surr _ (fun he => hs0 he.symm),
              lookupR_eraseR_ne c0 csv d (fun he => hc he.symm)]
            exact hd
          have hres := ih (insertR s0 surr (eraseR c0 d)) huniq
            (fun e he hcs => hsql e (List.mem_cons_of_mem _ he) hcs) hd'
          simp [_row_maker, hl, hlk, hres]

theorem row_maker_success_aux (ls : Lookups) :
    ∀ d : Row,
      (ls.map (fun e => e.1)).Nodup →
      (ls.map (fun e => e.2.1)).Nodup →
      (∀ e ∈ ls, ∀ e' ∈ ls, e.2.1 ≠ e'.1) →
      (∀ e ∈ ls, ((lookupR d e.1).bind e.2.2).isSome) →
      ∃ r, _row_maker ls d = some r ∧
        (∀ e ∈ ls, lookupR r e.1 = none) ∧
        (∀ e ∈ ls, lookupR r e.2.1 = (lookupR d e.1).bind e.2.2) ∧
        (∀ k, (∀ e ∈ ls, k ≠ e.1 ∧ k ≠ e.2.1) → lookupR r k = lookupR d k) := by
  induction ls with
  | nil =>
    intro d _ _ _ _
    exact ⟨d, rfl, by simp, by simp, fun k _ => rfl⟩
  | cons e0 rest ih =>
    obtain ⟨c0, s0, l0⟩ := e0
    intro d hcsv hsqlnd hdisj hpres
    simp only [List.map_cons] at hcsv hsqlnd
    have hc0mem : c0 ∉ rest.map (fun e => e.1) := (List.nodup_cons.mp hcsv).1
    have hcsv' : (rest.map (fun e => e.1)).Nodup := (List.nodup_cons.mp hcsv).2
    have hs0mem : s0 ∉ rest.map (fun e => e.2.1) := (List.nodup_cons.mp hsqlnd).1
    have hsqlnd' : (rest.map (fun e => e.2.1)).Nodup := (List.nodup_cons.mp hsqlnd).2
    have hdisj' : ∀ e ∈ rest, ∀ e' ∈ rest, e.2.1 ≠ e'.1 := fun e he e' he' =>
      hdisj e (List.mem_cons_of_mem _ he) e' (List.mem_cons_of_mem _ he')
    have hs0c0 : s0 ≠ c0 :=
      hdisj (c0, s0, l0) (List.mem_cons_self _ _) (c0, s0, l0) (List.mem_cons_self _ _)
    have hp0 := hpres (c0, s0, l0) (List.mem_cons_self _ _)
    cases hl : lookupR d c0 with
    | none => simp [hl] at hp0
    | some v =>
      cases hlk : l0 v with
      | none => simp [hl, hlk] at hp0
      | some surr =>
        have hlookd' : ∀ x, x ≠ c0 → x ≠ s0 →
            lookupR (insertR s0 surr (eraseR c0 d)) x = lookupR d x := by
          intro x h1 h2
          rw [lookupR_insertR_ne s0 x surr _ h2, lookupR_eraseR_ne c0 x d h1]
        have henec0 : ∀ e ∈ rest, e.1 ≠ c0 := fun e he h =>
          hc0mem (by rw [← h]; exact List.mem_map.mpr ⟨e, he, rfl⟩)
        have henes0 : ∀ e ∈ rest, e.1 ≠ s0 := fun e he h =>
          (hdisj (c0, s0, l0) (List.mem_cons_self _ _) e
            (List.mem_cons_of_mem _ he)) h.symm
        have hpres' : ∀ e ∈ rest,
            ((lookupR (insertR s0 surr (eraseR c0 d)) e.1).bind e.2.2).isSome := by
          intro e he
          rw [hlookd' e.1 (henec0 e he) (henes0 e he)]
          exact hpres e (List.mem_cons_of_mem _ he)
        obtain ⟨r, hr, P1, P2, P3⟩ :=
          ih (insertR s0 surr (eraseR c0 d)) hcsv' hsqlnd' hdisj' hpres'
        refine ⟨r, ?_, ?_, ?_, ?_⟩
        · simpa [_row_maker, hl, hlk] using hr
        · intro e he
          cases List.mem_cons.mp he with
          | inl h =>
            subst h
            have hcond : ∀ e' ∈ rest, c0 ≠ e'.1 ∧ c0 ≠ e'.2.1 := by
              intro e' he'
              refine ⟨fun hh => (henec0 e' he') hh.symm, fun hh => ?_⟩
              exact (hdisj e' (List.mem_cons_of_mem _ he') (c0, s0, l0)
                (List.mem_cons_self _ _)) hh.symm
            show lookupR r c0 = none
            rw [P3 c0 hcond,
              lookupR_insertR_ne s0 c0 surr _ (fun hh => hs0c0 hh.symm)]
            exact lookupR_eraseR_self c0 d
          | inr h => exact P1 e h
        · intro e he
          cases List.mem_cons.mp he with
          | inl h =>
            subst h
            have hcond : ∀ e' ∈ rest, s0 ≠ e'.1 ∧ s0 ≠ e'.2.1 := by
              intro e' he'
              refine ⟨fun hh => (henes0 e' he') hh.symm, fun hh => ?_⟩
              exact hs0mem (by rw [hh]; exact List.mem_map.mpr ⟨e', he', rfl⟩)
            show lookupR r s0 = (lookupR d c0).bind l0
            rw [P3 s0 hcond, lookupR_insertR_self s0 surr _, hl]
            simp [hlk]
          | inr h =>
            show lookupR r e.2.1 = (lookupR d e.1).bind e.2.2
            rw [P2 e h, hlookd' e.1 (henec0 e h) (henes0 e h)]
        · intro k hk
          obtain ⟨hk1, hk2⟩ := hk (c0, s0, l0) (List.mem_cons_self _ _)
          have hk' : ∀ e ∈ rest, k ≠ e.1 ∧ k ≠ e.2.1 := fun e he =>
            hk e (List.mem_cons_of_mem _ he)
          rw [P3 k hk', hlookd' k hk1 hk2]

/-- Claim C5: for every input row whose denormalised (tidied) column holds
a value with no entry in the corresponding lookup map, the row maker
returned by `renormalise_prepare` raises a key-lookup error (`none`) that
propagates to the caller; the miss is never swallowed or replaced by a
default.  The hypotheses say the tidied name belongs to exactly one lookup
entry and is not also the untidied (SQL) name of any entry — as holds for
the distinctly-named foreign-key columns of a real table. -/
theorem row_maker_lookup_miss (ls : Lookups) (csv sql : String)
    (lk : Value → Option Value) (v : Value) (d : Row)
    (huniq : ls.filter (fun e => e.1 = csv) = [(csv, sql, lk)])
    (hsql : ∀ e ∈ ls, e.2.1 = csv → e.1 = csv)
    (hval : lookupR d csv = some v) (hmiss : lk v = none) :
    _row_maker ls d = none :=
  row_maker_miss_aux csv sql lk v hmiss ls d huniq hsql (Or.inl hval)

/-- The lookup map of the test suite's `lookup_table`: natural-key text to
surrogate id. -/
def admin_lookup : Value → Option Value := fun v =>
  if v = Value.vStr "admin" then some (Value.vInt 1)
  else if v = Value.vStr "user" then some (Value.vInt 2)
  else none

/-- The lookups list `renormalise_prepare` builds for `normalised_table`:
tidied CSV name, original foreign-key column name, lookup map. -/
def sample_lookups : Lookups :=
  [("accounttype", "accounttype_id", admin_lookup)]

/-- A row whose `accounttype` value is absent from the lookup map. -/
def miss_row : Row :=
  [("username", Value.vStr "bob"), ("accounttype", Value.vStr "nosuch")]

theorem row_maker_lookup_miss_witness :
    lookupR miss_row "accounttype" = some (Value.vStr "nosuch") ∧
    admin_lookup (Value.vStr "nosuch") = none ∧
    _row_maker sample_lookups miss_row = none :=
  ⟨by decide, by decide,
   row_maker_lookup_miss sample_lookups "accounttype" "accounttype_id"
     admin_lookup (Value.vStr "nosuch") miss_row rfl
     (fun e he hc => absurd ((List.mem_singleton.mp he) ▸ hc) (by decide))
     (by decide) (by decide)⟩

/-- Claim C6: for every input row whose denormalised natural-key values
are all present in the lookup maps, the row maker returns a new row in
which each tidied denormalised key is removed, the resolved surrogate
value is stored under the original (untidied) foreign-key column name, and
every other (simple-column) entry is unchanged.  The Nodup/disjointness
hypotheses say the tidied and untidied column names are pairwise distinct,
as holds for the distinctly-named columns of a real table. -/
theorem row_maker_renormalises (ls : Lookups) (d : Row)
    (hcsv : (ls.map (fun e => e.1)).Nodup)
    (hsqlnd : (ls.map (fun e => e.2.1)).Nodup)
    (hdisj : ∀ e ∈ ls, ∀ e' ∈ ls, e.2.1 ≠ e'.1)
    (hpres : ∀ e ∈ ls, ((lookupR d e.1).bind e.2.2).isSome) :
    ∃ r, _row_maker ls d = some r ∧
      (∀ e ∈ ls, lookupR r e.1 = none) ∧
      (∀ e ∈ ls, lookupR r e.2.1 = (lookupR d e.1).bind e.2.2) ∧
      (∀ k, (∀ e ∈ ls, k ≠ e.1 ∧ k ≠ e.2.1) → lookupR r k = lookupR d k) :=
  row_maker_success_aux ls d hcsv hsqlnd hdisj hpres

/-- The renormalisation input row of the test suite (`accounttype` is the
tidied denormalised column; "admin" maps to surrogate id 1). -/
def make_row : Row :=
  [("username", Value.vStr "bob"), ("accounttype", Value.vStr "admin")]

/-- The renormalised output row for `make_row`. -/
def make_out_row : Row :=
  [("username", Value.vStr "bob"), ("accounttype_id", Value.vInt 1)]

theorem row_maker_renormalises_witness :
    _row_maker sample_lookups make_row = some make_out_row ∧
    lookupR make_out_row "accounttype" = none ∧
    lookupR make_out_row "accounttype_id" = some (Value.vInt 1) ∧
    lookupR make_out_row "username" = lookupR make_row "username" := by
  obtain ⟨r, hr, P1, P2, P3⟩ := row_maker_renormalises sample_lookups make_row
    (by decide) (by decide) (by decide) (by decide)
  have hro : _row_maker sample_lookups make_row = some make_out_row := rfl
  have hre : r = make_out_row := Option.some.inj (hr.symm.trans hro)
  subst hre
  refine ⟨hro, ?_, ?_, ?_⟩
  · exact P1 ("accounttype", "accounttype_id", admin_lookup)
      (List.mem_singleton.mpr rfl)
  · have h2 := P2 ("accounttype", "accounttype_id", admin_lookup)
      (List.mem_singleton.mpr rfl)
    simpa using h2
  · exact P3 "username" (by decide)

/-! ### Lemmas about the column partition -/

theorem partitionCols_perm (l : List Column) :
    ((partitionCols l).1 ++ (partitionCols l).2.1 ++ (partitionCols l).2.2).Perm l := by
  induction l with
  | nil => simp [partitionCols]
  | cons c rest ih =>
    rcases hrec : partitionCols rest with ⟨pks, fks, others⟩
    rw [hrec] at ih
    by_cases hfk : c.foreign_keys.isEmpty
    · by_cases hpk : c.primary_key
      · have : partitionCols (c :: rest) = (c :: pks, fks, others) := by
          simp [partitionCols, hrec, hfk, hpk]
        rw [this]
        simpa using ih.cons c
      · have : partitionCols (c :: rest) = (pks, fks, c :: others) := by
          simp [partitionCols, hrec, hfk, hpk]
        rw [this]
        have hmid : (pks ++ fks ++ (c :: others)).Perm (c :: (pks ++ fks ++ others)) := by
          simpa [List.append_assoc] using (@List.perm_middle _ c (pks ++ fks) others)
        exact hmid.trans (ih.cons c)
    · have : partitionCols (c :: rest) = (pks, c :: fks, others) := by
        simp [partitionCols, hrec, hfk]
      rw [this]
      have hmid : (pks ++ (c :: fks) ++ others).Perm (c :: (pks ++ fks ++ others)) := by
        simp [List.append_assoc]
      exact hmid.trans (ih.cons c)

theorem partitionCols_sublists (l : List Column) :
    (partitionCols l).1.Sublist l ∧ (partitionCols l).2.1.Sublist l ∧
      (partitionCols l).2.2.Sublist l := by
  induction l with
  | nil => simp [partitionCols]
  | cons c rest ih =>
    rcases hrec : partitionCols rest with ⟨pks, fks, others⟩
    rw [hrec] at ih
    obtain ⟨h1, h2, h3⟩ := ih
    by_cases hfk : c.foreign_keys.isEmpty
    · by_cases hpk : c.primary_key
      · have heq : partitionCols (c :: rest) = (c :: pks, fks, others) := by
          simp [partitionCols, hrec, hfk, hpk]
        rw [heq]
        exact ⟨h1.cons₂ c, h2.cons c, h3.cons c⟩
      · have heq : partitionCols (c :: rest) = (pks, fks, c :: others) := by
          simp [partitionCols, hrec, hfk, hpk]
        rw [heq]
        exact ⟨h1.cons c, h2.cons c, h3.cons₂ c⟩
    · have heq : partitionCols (c :: rest) = (pks, c :: fks, others) := by
        simp [partitionCols, hrec, hfk]
      rw [heq]
      exact ⟨h1.cons c, h2.cons₂ c, h3.cons c⟩

theorem partitionCols_classify (l : List Column) :
    (∀ c ∈ (partitionCols l).1, c.foreign_keys = [] ∧ c.primary_key = true) ∧
    (∀ c ∈ (partitionCols l).2.1, ¬c.foreign_keys = []) ∧
    (∀ c ∈ (partitionCols l).2.2, c.foreign_keys = [] ∧ c.primary_key = false) := by
  induction l with
  | nil => simp [partitionCols]
  | cons c rest ih =>
    rcases hrec : partitionCols rest with ⟨pks, fks, others⟩
    rw [hrec] at ih
    obtain ⟨h1, h2, h3⟩ := ih
    by_cases hfk : c.foreign_keys.isEmpty
    · have hfknil : c.foreign_keys = [] := List.isEmpty_iff.mp hfk
      by_cases hpk : c.primary_key
      · have heq : partitionCols (c :: rest) = (c :: pks, fks, others) := by
          simp [partitionCols, hrec, hfk, hpk]
        rw [heq]
        refine ⟨?_, h2, h3⟩
        intro c0 hc0
        cases List.mem_cons.mp hc0 with
        | inl h => subst h; exact ⟨hfknil, hpk⟩
        | inr h => exact h1 c0 h
      · have heq : partitionCols (c :: rest) = (pks, fks, c :: others) := by
          simp [partitionCols, hrec, hfk, hpk]
        rw [heq]
        refine ⟨h1, h2, ?_⟩
        intro c0 hc0
        cases List.mem_cons.mp hc0 with
        | inl h => subst h; exact ⟨hfknil, by simpa using hpk⟩
        | inr h => exact h3 c0 h
    · have hfkne : ¬c.foreign_keys = [] := fun he =>
        hfk (List.isEmpty_iff.mpr he)
      have heq : partitionCols (c :: rest) = (pks, c :: fks, others) := by
        simp [partitionCols, hrec, hfk]
      rw [heq]
      refine ⟨h1, ?_, h3⟩
      intro c0 hc0
      cases List.mem_cons.mp hc0 with
      | inl h => subst h; exact hfkne
      | inr h => exact h2 c0 h

/-- Claim C8: the column classifier returns three ordered sequences —
primary keys, foreign keys, other — forming a partition of the table's
columns (a permutation of them, each preserving source order), classified
first-match-wins: any column with a foreign-key reference lands in the
foreign keys (even if also flagged primary key); otherwise a column
flagged primary key lands in the primary keys; otherwise in "other". -/
theorem columns_partition_partitions (t : Table) :
    ((columns_partition t).1 ++ (columns_partition t).2.1 ++
        (columns_partition t).2.2).Perm t.columns ∧
    (columns_partition t).1.Sublist t.columns ∧
    (columns_partition t).2.1.Sublist t.columns ∧
    (columns_partition t).2.2.Sublist t.columns ∧
    (∀ c ∈ (columns_partition t).2.1, ¬c.foreign_keys = []) ∧
    (∀ c ∈ (columns_partition t).1, c.foreign_keys = [] ∧ c.primary_key = true) ∧
    (∀ c ∈ (columns_partition t).2.2, c.foreign_keys = [] ∧ c.primary_key = false) :=
  ⟨partitionCols_perm t.columns, (partitionCols_sublists t.columns).1,
   (partitionCols_sublists t.columns).2.1, (partitionCols_sublists t.columns).2.2,
   (partitionCols_classify t.columns).2.1, (partitionCols_classify t.columns).1,
   (partitionCols_classify t.columns).2.2⟩

/-! ### Lemmas about the normalisation plan -/


theorem normaliseFks_sound (s : Schema) :
    ∀ (l raw : List Column) (dn : List Labeled) (tts : List Table)
      (tcs fcs : List Column),
      normaliseFks s l = some (raw, dn, tts, tcs, fcs) →
      (∀ fk ∈ l, fk ∈ raw ∨ fk ∈ fcs) ∧
      (∀ fk ∈ raw, fk ∈ l ∧
        ∀ tname cname r2 tt, fk.foreign_keys = (tname, cname) :: r2 →
          lookupTable s tname = some tt →
          (find_natural_key tt).filter (fun c => c.primary_key) ≠ []) ∧
      (∀ fk ∈ fcs, fk ∈ l ∧
        ∀ tname cname r2 tt, fk.foreign_keys = (tname, cname) :: r2 →
          lookupTable s tname = some tt →
          ((find_natural_key tt).filter (fun c => c.primary_key) = [] ∧
            find_natural_key tt ≠ [])) ∧
      (∀ p ∈ dn.zip fcs, p.1.name = p.2.name) := by
  intro l
  induction l with
  | nil =>
    intro raw dn tts tcs fcs h
    have h0 := Option.some.inj h
    simp only [Prod.mk.injEq] at h0
    obtain ⟨h1, h2, h3, h4, h5⟩ := h0
    subst h1; subst h2; subst h3; subst h4; subst h5
    refine ⟨by simp, by simp, by simp, by simp⟩
  | cons fk0 rest ih =>
    intro raw dn tts tcs fcs h
    unfold normaliseFks at h
    split at h
    · cases h
    · rename_i tn cn r2 hfk0
      split at h
      · cases h
      · rename_i tt0 hlt
        split at h
        · cases h
        · rename_i tc0 hlc
          split at h
          · dsimp only at h
            split at h
            · cases h
            · split at h
              · cases h
              · cases h
          · rename_i raw' dn' tts' tcs' fcs' hrec
            dsimp only at h
            split at h
            · rename_i hcond
              have h0 := Option.some.inj h
              simp only [Prod.mk.injEq] at h0
              obtain ⟨h1, h2, h3, h4, h5⟩ := h0
              subst h1; subst h2; subst h3; subst h4; subst h5
              obtain ⟨ih1, ih2, ih3, ih4⟩ := ih raw' dn' tts' tcs' fcs' hrec
              refine ⟨?_, ?_, ?_, ih4⟩
              · intro fk hfk
                cases List.mem_cons.mp hfk with
                | inl he => subst he; exact Or.inl (List.mem_cons_self _ _)
                | inr he =>
                  cases ih1 fk he with
                  | inl hx => exact Or.inl (List.mem_cons_of_mem _ hx)
                  | inr hx => exact Or.inr hx
              · intro fk hfk
                cases List.mem_cons.mp hfk with
                | inl he =>
                  subst he
                  refine ⟨List.mem_cons_self _ _, ?_⟩
                  intro tname cname r2' tt htg hlt'
                  rw [hfk0] at htg
                  obtain ⟨hp, _⟩ := List.cons.inj htg
                  obtain ⟨htn, _⟩ := Prod.mk.inj hp
                  subst htn
                  rw [hlt] at hlt'
                  obtain rfl := Option.some.inj hlt'
                  exact hcond
                | inr he =>
                  obtain ⟨hmem, hrest⟩ := ih2 fk he
                  exact ⟨List.mem_cons_of_mem _ hmem, hrest⟩
              · intro fk hfk
                obtain ⟨hmem, hrest⟩ := ih3 fk hfk
                exact ⟨List.mem_cons_of_mem _ hmem, hrest⟩
            · rename_i hcond
              have hcond' : (find_natural_key tt0).filter
                  (fun c => c.primary_key) = [] := not_ne_iff.mp hcond
              split at h
              · cases h
              · rename_i r0 rnk hnk
                have h0 := Option.some.inj h
                simp only [Prod.mk.injEq] at h0
                obtain ⟨h1, h2, h3, h4, h5⟩ := h0
                subst h1; subst h2; subst h3; subst h4; subst h5
                obtain ⟨ih1, ih2, ih3, ih4⟩ := ih raw' dn' tts' tcs' fcs' hrec
                refine ⟨?_, ?_, ?_, ?_⟩
                · intro fk hfk
                  cases List.mem_cons.mp hfk with
                  | inl he => subst he; exact Or.inr (List.mem_cons_self _ _)
                  | inr he =>
                    cases ih1 fk he with
                    | inl hx => exact Or.inl hx
                    | inr hx => exact Or.inr (List.mem_cons_of_mem _ hx)
                · intro fk hfk
                  obtain ⟨hmem, hrest⟩ := ih2 fk hfk
                  exact ⟨List.mem_cons_of_mem _ hmem, hrest⟩
                · intro fk hfk
                  cases List.mem_cons.mp hfk with
                  | inl he =>
                    subst he
                    refine ⟨List.mem_cons_self _ _, ?_⟩
                    intro tname cname r2' tt htg hlt'
                    rw [hfk0] at htg
                    obtain ⟨hp, _⟩ := List.cons.inj htg
                    obtain ⟨htn, _⟩ := Prod.mk.inj hp
                    subst htn
                    rw [hlt] at hlt'
                    obtain rfl := Option.some.inj hlt'
                    exact ⟨hcond', by simp [hnk]⟩
                  | inr he =>
                    obtain ⟨hmem, hrest⟩ := ih3 fk he
                    exact ⟨List.mem_cons_of_mem _ hmem, hrest⟩
                · intro p hp
                  rw [List.zip_cons_cons] at hp
                  cases List.mem_cons.mp hp with
                  | inl he => subst he; rfl
                  | inr he => exact ih4 p he

theorem filter_primary_ne_iff (t : Table) :
    ((find_natural_key t).filter (fun c => c.primary_key) ≠ []) ↔
      (find_natural_key t = (columns_partition t).1 ∧
        (columns_partition t).1 ≠ []) := by
  have hcl := partitionCols_classify t.columns
  by_cases hlen : ((columns_partition t).2.2.filter (fun c => c.unique)).length = 1
  · obtain ⟨u, hu⟩ := List.length_eq_one.mp hlen
    have hnat : find_natural_key t = [u] := by
      simp only [find_natural_key]
      rw [hu]
      simp
    have humem : u ∈ (columns_partition t).2.2 :=
      List.mem_of_mem_filter (by rw [hu]; exact List.mem_singleton.mpr rfl)
    have hupk : u.primary_key = false := (hcl.2.2 u humem).2
    rw [hnat]
    constructor
    · intro hL
      exact absurd (by simp [hupk]) hL
    · rintro ⟨h1, _⟩
      have humem1 : u ∈ (columns_partition t).1 := by
        rw [← h1]; exact List.mem_singleton.mpr rfl
      have := (hcl.1 u humem1).2
      rw [hupk] at this
      cases this
  · have hnat : find_natural_key t = (columns_partition t).1 := by
      simp only [find_natural_key]
      rw [if_neg hlen]
    have hfp : (columns_partition t).1.filter (fun c => c.primary_key) =
        (columns_partition t).1 :=
      List.filter_eq_self.mpr (fun c hc => by simp [(hcl.1 c hc).2])
    rw [hnat, hfp]
    simp

/-- Claim C1 (amended): the plan's simple columns include the table's
primary-key columns exactly when the table's natural key IS its own
primary key (no genuine natural key distinct from the primary key exists);
when a genuine natural key exists the primary-key columns are omitted.
Moreover simple_cols = maybe_primary_keys ++ other_columns ++ raw
pass-through foreign keys, in that order. -/
theorem normalisation_simple_cols (s : Schema) (t : Table) (plan : NormPlan)
    (h : _normalisation_info s t = some plan) :
    ∃ raws, (∀ c ∈ raws, ¬c.foreign_keys = []) ∧
      plan.simple_cols =
        (if find_natural_key t = (columns_partition t).1
          then (columns_partition t).1 else []) ++
          (columns_partition t).2.2 ++ raws ∧
      (∀ c ∈ (columns_partition t).1,
        (c ∈ plan.simple_cols ↔
          find_natural_key t = (columns_partition t).1)) := by
  have hcl := partitionCols_classify t.columns
  unfold _normalisation_info at h
  dsimp only at h
  split at h
  · cases h
  · rename_i raw dn tts tcs fcs hrec
    have h0 := Option.some.inj h
    subst h0
    obtain ⟨ih1, ih2, ih3, ih4⟩ :=
      normaliseFks_sound s (columns_partition t).2.1 raw dn tts tcs fcs hrec
    refine ⟨raw, ?_, ?_, ?_⟩
    · intro c hc
      exact hcl.2.1 c (ih2 c hc).1
    · show (if (find_natural_key t).filter (fun c => c.primary_key) ≠ []
          then (columns_partition t).1 else []) ++
          (columns_partition t).2.2 ++ raw = _
      by_cases hfc : (find_natural_key t).filter (fun c => c.primary_key) ≠ []
      · obtain ⟨hnat, _⟩ := (filter_primary_ne_iff t).mp hfc
        rw [if_pos hfc, if_pos hnat]
      · rw [if_neg hfc]
        by_cases hnat : find_natural_key t = (columns_partition t).1
        · have hp1 : (columns_partition t).1 = [] := by
            by_contra hne
            exact hfc ((filter_primary_ne_iff t).mpr ⟨hnat, hne⟩)
          rw [if_pos hnat, hp1]
        · rw [if_neg hnat]
    · intro c hc
      have hcprops := hcl.1 c hc
      show c ∈ (if (find_natural_key t).filter (fun c => c.primary_key) ≠ []
          then (columns_partition t).1 else []) ++
          (columns_partition t).2.2 ++ raw ↔ _
      constructor
      · intro hmem
        by_contra hnat
        have hfc : ¬((find_natural_key t).filter (fun c => c.primary_key) ≠ []) :=
          fun hf => hnat ((filter_primary_ne_iff t).mp hf).1
        rw [if_neg hfc] at hmem
        simp only [List.nil_append, List.mem_append] at hmem
        cases hmem with
        | inl hmo =>
          have := (hcl.2.2 c hmo).2
          rw [hcprops.2] at this
          cases this
        | inr hmr =>
          exact (hcl.2.1 c (ih2 c hmr).1) hcprops.1
      · intro hnat
        have hfc := (filter_primary_ne_iff t).mpr ⟨hnat, List.ne_nil_of_mem hc⟩
        rw [if_pos hfc]
        exact List.mem_append_left _ (List.mem_append_left _ hc)

/-- The surrogate primary-key column `id` of the sample tables. -/
def id_col : Column := ⟨"id", false, false, true, [], PyType.pyInt⟩

/-- The natural-key column of `normalised_table`. -/
def username_col : Column := ⟨"username", false, true, false, [], PyType.pyStr⟩

/-- The nullable column of `normalised_table`. -/
def name_col : Column := ⟨"name", true, false, false, [], PyType.pyStr⟩

/-- The denormalisable foreign key of `normalised_table`. -/
def accounttype_col : Column :=
  ⟨"accounttype_id", false, false, false, [("lookup_table", "id")], PyType.pyInt⟩

/-- A plain data column of `normalised_table`. -/
def age_col : Column := ⟨"age", false, false, false, [], PyType.pyInt⟩

/-- The raw pass-through foreign key of `normalised_table` (its target has
no natural key). -/
def nonk_col : Column :=
  ⟨"nonk_id", true, false, false, [("lookup_nonk_table", "id")], PyType.pyInt⟩

/-- The natural-key column of `lookup_table`. -/
def lt_desc_col : Column := ⟨"description", false, true, false, [], PyType.pyStr⟩

/-- The normalisation plan the code computes for `normalised_table`. -/
def sample_plan : NormPlan :=
  ⟨[username_col, name_col, age_col, valid_col, nonk_col],
   [⟨lt_desc_col, "accounttype_id"⟩],
   [lookup_table], [id_col], [accounttype_col]⟩

/-- Claim C1 counterexample: `normalised_table` has a genuine natural key
(`username`) distinct from its primary key, so by the claim its
primary-key column `id` should be included in the simple columns; the code
omits it (and the test suite expects it omitted). -/
theorem normalisation_pk_inclusion_cex :
    find_natural_key normalised_table ≠ (columns_partition normalised_table).1 ∧
    id_col ∈ (columns_partition normalised_table).1 ∧
    _normalisation_info sample_schema normalised_table = some sample_plan ∧
    id_col ∉ sample_plan.simple_cols := by decide

theorem normalisation_simple_cols_witness :
    _normalisation_info sample_schema normalised_table = some sample_plan ∧
    ∃ raws, (∀ c ∈ raws, ¬c.foreign_keys = []) ∧
      sample_plan.simple_cols =
        (if find_natural_key normalised_table =
            (columns_partition normalised_table).1
          then (columns_partition normalised_table).1 else []) ++
          (columns_partition normalised_table).2.2 ++ raws ∧
      (∀ c ∈ (columns_partition normalised_table).1,
        (c ∈ sample_plan.simple_cols ↔
          find_natural_key normalised_table =
            (columns_partition normalised_table).1)) :=
  ⟨by decide,
   normalisation_simple_cols sample_schema normalised_table sample_plan (by decide)⟩

/-- Claim C4: every foreign-key column of the table lands in exactly one
of the plan's two foreign-key outcomes — raw pass-through into the simple
columns, or the denormalised-column list (`from_columns`) — never both and
never omitted; it passes through raw exactly when the remote (target)
table's natural key equals the target's primary key, and otherwise each
denormalised column is labeled with its foreign key's own column name. -/
theorem fk_outcome_exclusive (s : Schema) (t : Table) (plan : NormPlan)
    (fk : Column) (tname cname : String) (r2 : List (String × String))
    (tt : Table)
    (hplan : _normalisation_info s t = some plan)
    (hfk : fk ∈ (columns_partition t).2.1)
    (htg : fk.foreign_keys = (tname, cname) :: r2)
    (htt : lookupTable s tname = some tt) :
    ((fk ∈ plan.simple_cols ∨ fk ∈ plan.from_columns) ∧
      ¬(fk ∈ plan.simple_cols ∧ fk ∈ plan.from_columns)) ∧
    (fk ∈ plan.simple_cols ↔ find_natural_key tt = (columns_partition tt).1) ∧
    (∀ p ∈ plan.denormalised_cols.zip plan.from_columns, p.1.name = p.2.name) := by
  have hcl := partitionCols_classify t.columns
  unfold _normalisation_info at hplan
  dsimp only at hplan
  split at hplan
  · cases hplan
  · rename_i raw dn tts tcs fcs hrec
    have h0 := Option.some.inj hplan
    subst h0
    obtain ⟨ih1, ih2, ih3, ih4⟩ :=
      normaliseFks_sound s (columns_partition t).2.1 raw dn tts tcs fcs hrec
    have hfknotnil : ¬fk.foreign_keys = [] := by rw [htg]; simp
    have hsimp_iff :
        fk ∈ (if (find_natural_key t).filter (fun c => c.primary_key) ≠ []
            then (columns_partition t).1 else []) ++
            (columns_partition t).2.2 ++ raw ↔ fk ∈ raw := by
      constructor
      · intro hmem
        cases List.mem_append.mp hmem with
        | inl hmem2 =>
          exfalso
          cases List.mem_append.mp hmem2 with
          | inl hmp =>
            have hmp1 : fk ∈ (columns_partition t).1 := by
              by_cases hcond : (find_natural_key t).filter
                  (fun c => c.primary_key) ≠ []
              · rw [if_pos hcond] at hmp; exact hmp
              · rw [if_neg hcond] at hmp; cases hmp
            exact hfknotnil (hcl.1 fk hmp1).1
          | inr hmo => exact hfknotnil (hcl.2.2 fk hmo).1
        | inr hmr => exact hmr
      · intro hr
        exact List.mem_append_right _ hr
    cases ih1 fk hfk with
    | inl hraw =>
      have hne := (ih2 fk hraw).2 tname cname r2 tt htg htt
      have hnat : find_natural_key tt = (columns_partition tt).1 :=
        ((filter_primary_ne_iff tt).mp hne).1
      have hnotfcs : fk ∉ fcs := fun hf =>
        hne ((ih3 fk hf).2 tname cname r2 tt htg htt).1
      refine ⟨⟨Or.inl (hsimp_iff.mpr hraw), ?_⟩, ?_, ih4⟩
      · rintro ⟨_, hfc⟩
        exact hnotfcs hfc
      · exact ⟨fun _ => hnat, fun _ => hsimp_iff.mpr hraw⟩
    | inr hfcs =>
      obtain ⟨heqnil, hnknil⟩ := (ih3 fk hfcs).2 tname cname r2 tt htg htt
      have hnotraw : fk ∉ raw := fun hr =>
        ((ih2 fk hr).2 tname cname r2 tt htg htt) heqnil
      have hnatne : find_natural_key tt ≠ (columns_partition tt).1 := by
        intro hnat
        have hp1ne : (columns_partition tt).1 ≠ [] := by
          rw [← hnat]; exact hnknil
        exact ((filter_primary_ne_iff tt).mpr ⟨hnat, hp1ne⟩) heqnil
      refine ⟨⟨Or.inr hfcs, ?_⟩, ?_, ih4⟩
      · rintro ⟨hsm, _⟩
        exact hnotraw (hsimp_iff.mp hsm)
      · exact ⟨fun hsm => absurd (hsimp_iff.mp hsm) hnotraw,
          fun hnat => absurd hnat hnatne⟩

theorem fk_outcome_exclusive_witness :
    _normalisation_info sample_schema normalised_table = some sample_plan ∧
    nonk_col ∈ (columns_partition normalised_table).2.1 ∧
    find_natural_key lookup_nonk_table = (columns_partition lookup_nonk_table).1 ∧
    nonk_col ∈ sample_plan.simple_cols ∧
    nonk_col ∉ sample_plan.from_columns := by
  have H := fk_outcome_exclusive sample_schema normalised_table sample_plan
    nonk_col "lookup_nonk_table" "id" [] lookup_nonk_table
    (by decide) (by decide) (by decide) (by decide)
  refine ⟨by decide, by decide, by decide, ?_, ?_⟩
  · exact H.2.1.mpr (by decide)
  · intro hmem
    exact H.1.2 ⟨H.2.1.mpr (by decide), hmem⟩
